import Mathlib

/-!
Verification of the eigenvalue driver of a simple Monte Carlo neutron
transport code (`src/eigenvalue.c`).  The C functions are embedded as
Lean definitions over lists of particle records; machine doubles are
modelled by real numbers, C `unsigned long` loop counters by `Nat`, and
the stateful OTHER-stream random number generator by an oracle
`rni : ℕ → ℕ → ℕ → ℕ` applied to an explicit draw counter, so that the
k-th call of `rni(a, b)` returns `rni k a b` and advances the counter.
-/

namespace SimpleMC

/-- A particle record (`Particle` in `simple_mc.h`, modelled from the
spec §3: position, direction cosines, weight, energy group, alive
flag).  Particles are copied by value and never inspected by the
driver except for their positions. -/
structure Particle where
  x : ℝ
  y : ℝ
  z : ℝ
  u : ℝ
  v : ℝ
  w : ℝ
  wgt : ℝ
  e : ℕ
  alive : Bool

/-- The all-zero particle, used as the junk value read from bank
storage slots that the C code never initialises. -/
def pzero : Particle := ⟨0, 0, 0, 0, 0, 0, 0, 0, false⟩

/-- A particle bank: `p` is the backing storage (capacity `p.length`,
the C field `sz`) and `n` the live count; live particles occupy
`p[0..n)`. -/
structure Bank where
  p : List Particle
  n : ℕ

/-- A bank is well formed when its live count fits in its storage. -/
def Bank.wf (b : Bank) : Prop := b.n ≤ b.p.length

/-- The rectangular box geometry: side lengths `Lx`, `Ly`, `Lz`. -/
structure Geometry where
  Lx : ℝ
  Ly : ℝ
  Lz : ℝ

/-- Result of `synchronize_bank`: the updated source bank, the updated
fission bank, and the RNG draw counter after the call. -/
structure SyncResult where
  source : Bank
  fission : Bank
  state : ℕ

/-- One iteration of the reservoir loop of `synchronize_bank`
(`eigenvalue.c` lines 194-199): draw `j = rni(0, i+1)`, and if
`j < n_s` overwrite `source_bank->p[j]` with `fission_bank->p[i]`. -/
def syncStepA (rni : ℕ → ℕ → ℕ → ℕ) (fp : List Particle) (ns : ℕ)
    (acc : List Particle × ℕ) (i : ℕ) : List Particle × ℕ :=
  let j := rni acc.2 0 (i + 1)
  (if j < ns then acc.1.set j (fp.getD i pzero) else acc.1, acc.2 + 1)

/-- One iteration of the over-sampling loop of `synchronize_bank`
(`eigenvalue.c` lines 208-211): draw `j = rni(0, n_f)` and set
`source_bank->p[i] = fission_bank->p[j]`. -/
def syncStepB (rni : ℕ → ℕ → ℕ → ℕ) (fp : List Particle) (nf : ℕ)
    (acc : List Particle × ℕ) (i : ℕ) : List Particle × ℕ :=
  (acc.1.set i (fp.getD (rni acc.2 0 nf) pzero), acc.2 + 1)

/-- `synchronize_bank` (`eigenvalue.c` lines 178-220).  If
`n_f ≥ n_s`, copy the first `n_s` fission sites over the source
storage and run the reservoir loop for `i = n_s, …, n_f-1`; otherwise
fill `source_bank->p[0..n_s-n_f)` with uniformly drawn fission sites
and copy the whole fission bank into `source_bank->p[n_s-n_f..n_s)`.
Finally set `fission_bank->n = 0`.  `st` is the RNG draw counter on
entry. -/
def synchronize_bank (rni : ℕ → ℕ → ℕ → ℕ) (src fis : Bank) (st : ℕ) :
    SyncResult :=
  let ns := src.n
  let nf := fis.n
  if ns ≤ nf then
    let sp0 := fis.p.take ns ++ src.p.drop ns
    let r := (List.range' ns (nf - ns)).foldl (syncStepA rni fis.p ns) (sp0, st)
    ⟨⟨r.1, ns⟩, ⟨fis.p, 0⟩, r.2⟩
  else
    let r := (List.range (ns - nf)).foldl (syncStepB rni fis.p nf) (src.p, st)
    let sp := r.1.take (ns - nf) ++ fis.p.take nf ++ r.1.drop ns
    ⟨⟨sp, ns⟩, ⟨fis.p, 0⟩, r.2⟩

/-- Claim C1's description of Case A, written over the length-`n_s`
source bank itself: start from the copied prefix `fission_bank[0..n_s)`
and, for each index `i` of the remaining fission sites in increasing
order, draw `j = rni(0, i+1)` and overwrite slot `j` exactly when
`j < n_s`. -/
def resampleA_spec (rni : ℕ → ℕ → ℕ → ℕ) (fp : List Particle) (ns : ℕ) :
    ℕ → List ℕ → List Particle → List Particle
  | _, [], cur => cur
  | st, i :: is, cur =>
    let j := rni st 0 (i + 1)
    resampleA_spec rni fp ns (st + 1) is
      (if j < ns then cur.set j (fp.getD i pzero) else cur)

/-- Claim C2's description of the drawn prefix of Case B: entry `k` of
the new source bank, for `k < n_s - n_f`, is `fission_bank[rni(0, n_f)]`
at the k-th draw. -/
def drawsB_spec (rni : ℕ → ℕ → ℕ → ℕ) (fp : List Particle) (nf st m : ℕ) :
    List Particle :=
  (List.range m).map (fun k => fp.getD (rni (st + k) 0 nf) pzero)

/-- The reservoir loop of the code, folded over the full source
storage, agrees on the live prefix with claim C1's description applied
to the length-`n_s` view: writes only ever land at indices `j < n_s`. -/
theorem foldA_take (rni : ℕ → ℕ → ℕ → ℕ) (fp : List Particle) (ns : ℕ) :
    ∀ (is : List ℕ) (sp : List Particle) (st : ℕ),
      ((is.foldl (syncStepA rni fp ns) (sp, st)).1).take ns
        = resampleA_spec rni fp ns st is (sp.take ns) := by
  intro is
  induction is with
  | nil => intro sp st; rfl
  | cons i is ih =>
    intro sp st
    simp only [List.foldl_cons, resampleA_spec, syncStepA]
    rw [ih]
    by_cases hj : rni st 0 (i + 1) < ns
    · simp only [if_pos hj, List.set_take]
    · simp only [if_neg hj]

/-- The over-sampling loop of the code writes the claim-C2 draws into
the first `m` slots of the source storage, in order, and leaves the
rest of the storage unchanged; the RNG counter advances by `m`. -/
theorem foldB_shape (rni : ℕ → ℕ → ℕ → ℕ) (fp : List Particle) (nf : ℕ) :
    ∀ (m : ℕ) (l : List Particle) (st : ℕ), m ≤ l.length →
      (List.range m).foldl (syncStepB rni fp nf) (l, st)
        = (drawsB_spec rni fp nf st m ++ l.drop m, st + m) := by
  intro m
  induction m with
  | zero => intro l st _; simp [drawsB_spec]
  | succ m ih =>
    intro l st hm
    rw [List.range_succ, List.foldl_append, ih l st (Nat.le_of_succ_le hm)]
    have hd : l.drop m = l.getD m pzero :: l.drop (m + 1) := by
      have hlt : m < l.length := hm
      rw [List.getD_eq_getElem l pzero hlt]
      exact List.drop_eq_getElem_cons hlt
    have hlen : (drawsB_spec rni fp nf st m).length = m := by
      simp [drawsB_spec]
    have hspec : drawsB_spec rni fp nf st (m + 1)
        = drawsB_spec rni fp nf st m ++ [fp.getD (rni (st + m) 0 nf) pzero] := by
      simp [drawsB_spec, List.range_succ]
    simp only [List.foldl_cons, List.foldl_nil, syncStepB, Prod.mk.injEq]
    constructor
    · rw [hd, List.set_append_right _ _ (by omega), hlen, Nat.sub_self,
        List.set_cons_zero, hspec, List.append_assoc, List.singleton_append]
    · omega

/-- Claim C1: with `n_f ≥ n_s`, the new source bank is the copied
prefix `fission_bank[0..n_s)` transformed by the reservoir loop
(`j = rni(0, i+1)`, overwrite slot `j` exactly when `j < n_s`, for
`i = n_s, …, n_f - 1` in order); when `n_f = n_s` it is a plain copy
of the fission bank. -/
theorem claim_C1 (rni : ℕ → ℕ → ℕ → ℕ) (src fis : Bank) (st : ℕ)
    (hwf : fis.wf) (h : src.n ≤ fis.n) :
    ((synchronize_bank rni src fis st).source.p.take src.n
        = resampleA_spec rni fis.p src.n st
            (List.range' src.n (fis.n - src.n)) (fis.p.take src.n))
    ∧ (fis.n = src.n →
        (synchronize_bank rni src fis st).source.p.take src.n
          = fis.p.take src.n) := by
  have hns : src.n ≤ fis.p.length := le_trans h hwf
  have hmain : (synchronize_bank rni src fis st).source.p.take src.n
      = resampleA_spec rni fis.p src.n st
          (List.range' src.n (fis.n - src.n)) (fis.p.take src.n) := by
    simp only [synchronize_bank, if_pos h]
    rw [foldA_take]
    congr 1
    have hlen : (fis.p.take src.n).length = src.n := by
      simp [Nat.min_eq_left hns]
    rw [List.take_append_of_le_length (le_of_eq hlen.symm)]
    rw [List.take_take, Nat.min_self]
  refine ⟨hmain, fun heq => ?_⟩
  rw [hmain, heq, Nat.sub_self]
  rfl

/-- Witness for claim C1 at a concrete input: one source slot, two
fission sites. -/
theorem claim_C1_witness :
    (Bank.wf ⟨[pzero, pzero], 2⟩) ∧ (1 ≤ 2) ∧
    ((synchronize_bank (fun _ _ _ => 0) ⟨[pzero], 1⟩ ⟨[pzero, pzero], 2⟩ 0).source.p.take 1
      = resampleA_spec (fun _ _ _ => 0) [pzero, pzero] 1 0
          (List.range' 1 1) ([pzero, pzero].take 1)) :=
  ⟨by simp [Bank.wf], by omega,
    (claim_C1 (fun _ _ _ => 0) ⟨[pzero], 1⟩ ⟨[pzero, pzero], 2⟩ 0
      (by simp [Bank.wf]) (by decide)).1⟩

/-- Storage shape of the Case-B result: the drawn prefix, then the
whole fission bank, then untouched storage. -/
theorem syncB_storage (rni : ℕ → ℕ → ℕ → ℕ) (src fis : Bank) (st : ℕ)
    (hwfs : src.wf) (hwff : fis.wf) (h : fis.n < src.n) :
    (synchronize_bank rni src fis st).source.p
      = drawsB_spec rni fis.p fis.n st (src.n - fis.n)
          ++ fis.p.take fis.n
          ++ (drawsB_spec rni fis.p fis.n st (src.n - fis.n)
                ++ src.p.drop (src.n - fis.n)).drop src.n := by
  have hm : src.n - fis.n ≤ src.p.length := le_trans (Nat.sub_le _ _) hwfs
  simp only [synchronize_bank, if_neg (Nat.not_le_of_lt h)]
  rw [foldB_shape rni fis.p fis.n (src.n - fis.n) src.p st hm]
  have hlen : (drawsB_spec rni fis.p fis.n st (src.n - fis.n)).length
      = src.n - fis.n := by simp [drawsB_spec]
  rw [List.take_left' hlen]

/-- Claim C2: with `0 < n_f < n_s` the first `n_s - n_f` entries of
the new source bank are `fission_bank[rni(0, n_f)]` drawn in order
`k = 0, 1, …`, and the last `n_f` entries equal the fission bank in
order. -/
theorem claim_C2 (rni : ℕ → ℕ → ℕ → ℕ) (src fis : Bank) (st : ℕ)
    (hwfs : src.wf) (hwff : fis.wf) (h0 : 0 < fis.n) (h : fis.n < src.n) :
    ((synchronize_bank rni src fis st).source.p.take src.n
        = drawsB_spec rni fis.p fis.n st (src.n - fis.n) ++ fis.p.take fis.n)
    ∧ (∀ k, k < src.n - fis.n →
        (synchronize_bank rni src fis st).source.p.getD k pzero
          = fis.p.getD (rni (st + k) 0 fis.n) pzero)
    ∧ (∀ k, k < fis.n →
        (synchronize_bank rni src fis st).source.p.getD (src.n - fis.n + k) pzero
          = fis.p.getD k pzero) := by
  have hsp := syncB_storage rni src fis st hwfs hwff h
  have hlenD : (drawsB_spec rni fis.p fis.n st (src.n - fis.n)).length
      = src.n - fis.n := by simp [drawsB_spec]
  have hlenT : (fis.p.take fis.n).length = fis.n := by
    simp [Nat.min_eq_left hwff]
  refine ⟨?_, ?_, ?_⟩
  · rw [hsp, List.take_append_of_le_length ?hle]
    · rw [List.take_of_length_le ?hle2]
      case hle2 => rw [List.length_append, hlenD, hlenT]; omega
    · rw [List.length_append, hlenD, hlenT]; omega
  · intro k hk
    rw [hsp, List.append_assoc,
      List.getD_append _ _ _ _ (by rw [hlenD]; exact hk)]
    simp only [drawsB_spec]
    rw [List.getD_eq_getElem _ _ (by simp; exact hk)]
    simp
  · intro k hk
    rw [hsp, List.append_assoc,
      List.getD_append_right _ _ _ _ (by rw [hlenD]; omega), hlenD,
      Nat.add_sub_cancel_left,
      List.getD_append _ _ _ _ (by rw [hlenT]; exact hk)]
    rw [List.getD_eq_getElem _ _ (by rw [hlenT]; exact hk),
      List.getD_eq_getElem _ _ (lt_of_lt_of_le hk hwff)]
    simp [List.getElem_take]

/-- Witness for claim C2 at a concrete input: three source slots, one
fission site. -/
theorem claim_C2_witness :
    (Bank.wf ⟨[pzero, pzero, pzero], 3⟩) ∧ (Bank.wf ⟨[pzero], 1⟩) ∧
    (0 < 1) ∧ (1 < 3) ∧
    ((synchronize_bank (fun _ _ _ => 0) ⟨[pzero, pzero, pzero], 3⟩ ⟨[pzero], 1⟩ 0).source.p.take 3
      = drawsB_spec (fun _ _ _ => 0) [pzero] 1 0 2 ++ [pzero].take 1) :=
  ⟨by simp [Bank.wf], by simp [Bank.wf], by decide, by decide,
    (claim_C2 (fun _ _ _ => 0) ⟨[pzero, pzero, pzero], 3⟩ ⟨[pzero], 1⟩ 0
      (by simp [Bank.wf]) (by simp [Bank.wf]) (by decide) (by decide)).1⟩

/-- The concrete banks of the claim-C5 counterexample: one live source
particle, an empty fission bank whose storage slot holds a stale
particle `pstale`. -/
def pstale : Particle := ⟨5, 6, 7, 0, 0, 1, 1, 0, true⟩

/-- Counterexample to claim C5: at `n_f = 0` (population extinction)
`synchronize_bank` does not terminate the program with an `ERROR:`
diagnostic — the source contains no extinction check and no call to
`print_error` — but proceeds through the over-sampling branch, filling
the source bank from the stale fission storage and returning normally
with `fission_bank.n = 0`. -/
theorem claim_C5_counterexample :
    (Bank.n ⟨[pstale], 0⟩ = 0) ∧
    (synchronize_bank (fun _ _ _ => 0) ⟨[pzero], 1⟩ ⟨[pstale], 0⟩ 0
      = ⟨⟨[pstale], 1⟩, ⟨[pstale], 0⟩, 1⟩) := by
  constructor
  · rfl
  · rfl

/-- Amended claim C5: if the fission bank is empty at a synchronize
step (`n_f = 0 < n_s`), `synchronize_bank` raises no error and prints
no diagnostic; it proceeds through the over-sampling branch, filling
every slot `k < n_s` of the new source bank with the fission-bank
storage entry at index `rni(0, 0)` (a stale, never-initialised site),
and sets `fission_bank.n = 0`. -/
theorem claim_C5_amended (rni : ℕ → ℕ → ℕ → ℕ) (src fis : Bank) (st : ℕ)
    (hwfs : src.wf) (hext : fis.n = 0) (hpos : 0 < src.n) :
    ((synchronize_bank rni src fis st).source.p.take src.n
        = drawsB_spec rni fis.p 0 st src.n)
    ∧ (synchronize_bank rni src fis st).source.n = src.n
    ∧ (synchronize_bank rni src fis st).fission.n = 0 := by
  have h : fis.n < src.n := hext ▸ hpos
  have hsp := syncB_storage rni src fis st hwfs
    (show fis.n ≤ fis.p.length from hext ▸ Nat.zero_le _) h
  rw [hext] at hsp
  have hlenD : (drawsB_spec rni fis.p 0 st (src.n - 0)).length = src.n - 0 := by
    simp [drawsB_spec]
  refine ⟨?_, ?_, ?_⟩
  · rw [hsp]
    simp only [List.take_nil, Nat.sub_zero] at *
    rw [List.take_append_of_le_length (by rw [List.length_append, hlenD]; simp)]
    rw [List.take_of_length_le (by rw [List.length_append, hlenD]; simp)]
    simp
  · simp only [synchronize_bank, if_neg (Nat.not_le_of_lt h)]
  · simp only [synchronize_bank, if_neg (Nat.not_le_of_lt h)]

/-- Witness for the amended claim C5 at a concrete input. -/
theorem claim_C5_amended_witness :
    (Bank.wf ⟨[pzero, pzero], 2⟩) ∧ (Bank.n ⟨[pstale], 0⟩ = 0) ∧ (0 < 2) ∧
    ((synchronize_bank (fun _ _ _ => 0) ⟨[pzero, pzero], 2⟩ ⟨[pstale], 0⟩ 0).source.p.take 2
      = drawsB_spec (fun _ _ _ => 0) [pstale] 0 0 2) :=
  ⟨by simp [Bank.wf], rfl, by decide,
    (claim_C5_amended (fun _ _ _ => 0) ⟨[pzero, pzero], 2⟩ ⟨[pstale], 0⟩ 0
      (by simp [Bank.wf]) rfl (by decide)).1⟩

/-- One generation of the driver loop (`run_eigenvalue`, lines 37-90),
with the transport phase abstracted: `tr` maps the source bank (and
the current generation's parallel transport randomness, already fixed
by the skip-ahead contract) to the merged fission bank produced by the
generation.  The state is the source bank plus the OTHER-stream draw
counter. -/
def generationStep (tr : Bank → Bank) (rni : ℕ → ℕ → ℕ → ℕ)
    (s : Bank × ℕ) : Bank × ℕ :=
  let fis := tr s.1
  let r := synchronize_bank rni s.1 fis s.2
  (r.source, r.state)

/-- `g` generations of the driver loop. -/
def generations (tr : Bank → Bank) (rni : ℕ → ℕ → ℕ → ℕ) :
    ℕ → Bank × ℕ → Bank × ℕ
  | 0, s => s
  | g + 1, s => generations tr rni g (generationStep tr rni s)

/-- Claim C3, population conservation: `synchronize_bank` always sets
`fission_bank.n` to `0` and never changes `source_bank.n`; hence after
every generation of the driver loop the source bank still holds
exactly `N` particles and the fission bank is empty. -/
theorem claim_C3 (rni : ℕ → ℕ → ℕ → ℕ) (src fis : Bank) (st : ℕ)
    (tr : Bank → Bank) (g : ℕ) (N : ℕ) (hN : src.n = N) :
    ((synchronize_bank rni src fis st).fission.n = 0
      ∧ (synchronize_bank rni src fis st).source.n = src.n)
    ∧ (generations tr rni g (src, st)).1.n = N := by
  have hsync : ∀ (src' fis' : Bank) (st' : ℕ),
      (synchronize_bank rni src' fis' st').fission.n = 0
        ∧ (synchronize_bank rni src' fis' st').source.n = src'.n := by
    intro src' fis' st'
    by_cases hc : src'.n ≤ fis'.n
    · simp [synchronize_bank, hc]
    · simp [synchronize_bank, hc]
  refine ⟨hsync src fis st, ?_⟩
  have hstep : ∀ s : Bank × ℕ, (generationStep tr rni s).1.n = s.1.n := by
    intro s
    exact (hsync s.1 (tr s.1) s.2).2
  have hloop : ∀ (g' : ℕ) (s : Bank × ℕ),
      (generations tr rni g' s).1.n = s.1.n := by
    intro g'
    induction g' with
    | zero => intro s; rfl
    | succ g' ih => intro s; rw [generations, ih, hstep]
  rw [hloop, hN]

/-- Witness for claim C3 at a concrete input: two generations with a
transport kernel that duplicates the source bank. -/
theorem claim_C3_witness :
    (Bank.n ⟨[pzero], 1⟩ = 1) ∧
    ((synchronize_bank (fun _ _ _ => 0) ⟨[pzero], 1⟩ ⟨[pzero, pzero], 2⟩ 0).fission.n = 0
      ∧ (synchronize_bank (fun _ _ _ => 0) ⟨[pzero], 1⟩ ⟨[pzero, pzero], 2⟩ 0).source.n = 1)
    ∧ (generations (fun b => ⟨b.p ++ b.p, 2 * b.n⟩) (fun _ _ _ => 0) 2 (⟨[pzero], 1⟩, 0)).1.n = 1 :=
  ⟨rfl, claim_C3 (fun _ _ _ => 0) ⟨[pzero], 1⟩ ⟨[pzero, pzero], 2⟩ 0
    (fun b => ⟨b.p ++ b.p, 2 * b.n⟩) 2 1 rfl⟩

/-- Modelled from the spec: the OpenMP static partition of the
particle index range `[0, N)` into contiguous per-worker chunks
(`global.h` and the OpenMP runtime are not under `src/`; spec §5 fixes
the model: each iteration of the particle loop runs wholly on one
worker and workers own contiguous index blocks).  `chunkBlocks s cs`
is the list of index blocks of sizes `cs` starting at `s`. -/
def chunkBlocks : ℕ → List ℕ → List (List ℕ)
  | _, [] => []
  | s, c :: cs => List.range' s c :: chunkBlocks (s + c) cs

/-- Modelled from the spec: a worker's local fission bank after the
transport phase is the concatenation, in iteration order, of the
fission offspring of the particles of its chunk; `offspring i_p` is
the offspring list of particle `i_p`, a function of `i_p` alone by the
skip-ahead RNG contract (spec §4.1, §5). -/
def workerBank (offspring : ℕ → List Particle) (chunk : List ℕ) :
    List Particle :=
  (chunk.map offspring).flatten

/-- `merge_fission_banks` (`eigenvalue.c` lines 130-176), modelled
over the per-worker banks: both reductions iterate workers in index
order, so the master bank is the in-order concatenation of the worker
banks. -/
def mergedFissionBank (offspring : ℕ → List Particle) (cs : List ℕ) :
    List Particle :=
  ((chunkBlocks 0 cs).map (workerBank offspring)).flatten

/-- Concatenating the contiguous blocks restores the index range. -/
theorem chunkBlocks_join : ∀ (cs : List ℕ) (s : ℕ),
    (chunkBlocks s cs).flatten = List.range' s cs.sum := by
  intro cs
  induction cs with
  | nil => intro s; rfl
  | cons c cs ih =>
    intro s
    simp only [chunkBlocks, List.flatten_cons, ih, List.sum_cons]
    rw [List.range'_append_1, Nat.add_comm]

/-- Joining per-chunk offspring is joining offspring of the joined
chunks. -/
theorem workerBank_join (offspring : ℕ → List Particle) :
    ∀ L : List (List ℕ),
      (L.map (workerBank offspring)).flatten
        = ((L.flatten).map offspring).flatten := by
  intro L
  induction L with
  | nil => rfl
  | cons ch L ih =>
    simp only [List.map_cons, List.flatten_cons, ih, workerBank,
      List.map_append, List.flatten_append]

/-- Claim C4 (spec-modelled): with per-particle offspring fixed by the
skip-ahead RNG contract, the merged fission bank produced by any
worker count — any contiguous partition `cs` of the `N` particle
indices, merged in worker-index order — is identical to the
single-worker bank; consequently `synchronize_bank`, and with it every
downstream quantity of the generation (`keff`, entropy, saved source),
receives bit-identical input. -/
theorem claim_C4 (offspring : ℕ → List Particle) (N : ℕ) (cs : List ℕ)
    (h : cs.sum = N) :
    (mergedFissionBank offspring cs = mergedFissionBank offspring [N])
    ∧ (∀ (rni : ℕ → ℕ → ℕ → ℕ) (src : Bank) (st : ℕ),
        synchronize_bank rni src
            ⟨mergedFissionBank offspring cs,
              (mergedFissionBank offspring cs).length⟩ st
          = synchronize_bank rni src
              ⟨mergedFissionBank offspring [N],
                (mergedFissionBank offspring [N]).length⟩ st) := by
  have hmain : mergedFissionBank offspring cs = mergedFissionBank offspring [N] := by
    unfold mergedFissionBank
    rw [workerBank_join, workerBank_join, chunkBlocks_join, chunkBlocks_join, h]
    rfl
  exact ⟨hmain, fun rni src st => by rw [hmain]⟩

/-- Witness for claim C4 at a concrete input: three particles split
into chunks of sizes 1 and 2. -/
theorem claim_C4_witness :
    (List.sum [1, 2] = 3) ∧
    (mergedFissionBank (fun i => [⟨i, 0, 0, 0, 0, 0, 0, 0, true⟩]) [1, 2]
      = mergedFissionBank (fun i => [⟨i, 0, 0, 0, 0, 0, 0, 0, true⟩]) [3]) :=
  ⟨by decide,
    (claim_C4 (fun i => [⟨i, 0, 0, 0, 0, 0, 0, 0, true⟩]) 3 [1, 2] (by decide)).1⟩

/-- The active-batch index update of `run_eigenvalue` (lines 29-34):
at the top of batch `i_b`, `i_a` is incremented when
`i_b >= n_batches - n_active` (C `int` arithmetic, modelled by `ℤ`). -/
def iaStep (c : ℤ) (ib : ℤ) (ia : ℤ) : ℤ := if c ≤ ib then ia + 1 else ia

/-- The value of `i_a` during batch `i_b` (after the increment step of
that batch); `i_a` starts at `-1` and `c = n_batches - n_active`. -/
def iaAt (c : ℤ) : ℕ → ℤ
  | 0 => iaStep c 0 (-1)
  | ib + 1 => iaStep c (ib + 1 : ℕ) (iaAt c ib)

/-- The argument `n = i_a + 1` of the unconditional call
`calculate_keff(keff, &keff_mean, &keff_std, i_a+1)` at line 107 of
`run_eigenvalue`, during batch `i_b`. -/
def keffCallN (nb na : ℤ) (ib : ℕ) : ℤ := iaAt (nb - na) ib + 1

/-- Counterexample to claim C6: with `n_batches = 2`, `n_active = 1`
(a legal configuration), batch 0 is inactive, `i_a` is still `-1`
there, and the driver calls `calculate_keff` with `n = i_a + 1 = 0`. -/
theorem claim_C6_counterexample :
    ((0 : ℤ) < 2) ∧ ¬ (1 ≤ keffCallN 2 1 0) := by
  constructor
  · decide
  · decide

/-- Closed form for `iaAt`. -/
theorem iaAt_closed (c : ℤ) : ∀ ib : ℕ,
    iaAt c ib = if c ≤ (ib : ℤ) then (ib : ℤ) - max c 0 else -1 := by
  intro ib
  induction ib with
  | zero =>
    simp only [iaAt, iaStep, Nat.cast_zero]
    by_cases hc : c ≤ 0
    · rw [if_pos hc, if_pos hc, max_eq_right hc]
      norm_num
    · rw [if_neg hc, if_neg hc]
  | succ ib ih =>
    have hcast : ((ib + 1 : ℕ) : ℤ) = (ib : ℤ) + 1 := by push_cast; ring
    simp only [iaAt, iaStep, hcast]
    by_cases h1 : c ≤ (ib : ℤ) + 1
    · rw [if_pos h1, if_pos h1, ih]
      by_cases h0 : c ≤ (ib : ℤ)
      · rw [if_pos h0]
        ring
      · rw [if_neg h0]
        have hc : c = (ib : ℤ) + 1 := le_antisymm h1 (by omega)
        have hnn : (0 : ℤ) ≤ c := by omega
        rw [max_eq_left hnn]
        omega
    · rw [if_neg h1, if_neg h1, ih, if_neg (by omega)]

/-- Amended claim C6: the driver calls the k_eff accumulator once per
batch with `n = i_a + 1`; that argument is at least 1 exactly in the
active batches (`i_b ≥ n_batches − n_active`), and is 0 during the
earlier inactive batches. -/
theorem claim_C6_amended (nb na : ℤ) (ib : ℕ) :
    1 ≤ keffCallN nb na ib ↔ nb - na ≤ (ib : ℤ) := by
  unfold keffCallN
  rw [iaAt_closed]
  by_cases h : nb - na ≤ (ib : ℤ)
  · rw [if_pos h]
    have hmax : max (nb - na) 0 ≤ (ib : ℤ) :=
      max_le h (Int.ofNat_nonneg ib)
    constructor
    · intro _; exact h
    · intro _; omega
  · rw [if_neg h]
    constructor
    · intro hle; omega
    · intro hc; exact absurd hc h

/-- `calculate_keff` (`eigenvalue.c` lines 295-315): the running mean
and sample standard deviation of `keff[0..n)`.  The C doubles are
modelled by reals; the two output parameters become the two components
of the returned pair. -/
noncomputable def calculate_keff (keff : ℕ → ℝ) (n : ℕ) : ℝ × ℝ :=
  let mean := (∑ i in Finset.range n, keff i) / n
  let std := Real.sqrt ((∑ i in Finset.range n, (keff i - mean) ^ 2) / ((n : ℝ) - 1))
  (mean, std)

/-- Claim C8: for `n ≥ 1`, `calculate_keff` returns
`mean = (1/n) ∑ keff[i]` and
`std = sqrt((1/(n-1)) ∑ (keff[i] - mean)²)` (Bessel-corrected sample
standard deviation); in particular for `n = 1` the mean is `keff[0]`.
(The IEEE value `NaN` that the C code produces for `std` at `n = 1`
has no counterpart in the real-number model; there both sides of the
identity are the same division-by-zero convention value.) -/
theorem claim_C8 (keff : ℕ → ℝ) (n : ℕ) (hn : 1 ≤ n) :
    ((calculate_keff keff n).1 = (1 / (n : ℝ)) * ∑ i in Finset.range n, keff i)
    ∧ ((calculate_keff keff n).2
        = Real.sqrt ((1 / ((n : ℝ) - 1))
            * ∑ i in Finset.range n, (keff i - (calculate_keff keff n).1) ^ 2))
    ∧ (n = 1 → (calculate_keff keff n).1 = keff 0) := by
  refine ⟨?_, ?_, ?_⟩
  · simp only [calculate_keff]
    rw [one_div, inv_mul_eq_div]
  · simp only [calculate_keff]
    rw [one_div, inv_mul_eq_div]
  · intro h1
    subst h1
    simp only [calculate_keff, Finset.sum_range_one, Nat.cast_one, div_one]

/-- Witness for claim C8 at a concrete input. -/
theorem claim_C8_witness :
    (1 ≤ 2) ∧
    ((calculate_keff (fun _ => (1 : ℝ)) 2).1
      = (1 / (2 : ℝ)) * ∑ i in Finset.range 2, (1 : ℝ)) :=
  ⟨by decide,
    by
      have h := (claim_C8 (fun _ => (1 : ℝ)) 2 (by decide)).1
      simpa using h⟩

/-- The squared Euclidean distance accumulated by the inner loop of
`mean_squared_distance` (`eigenvalue.c` lines 284-285). -/
noncomputable def sqDist (p q : Particle) : ℝ :=
  (p.x - q.x) * (p.x - q.x) + (p.y - q.y) * (p.y - q.y)
    + (p.z - q.z) * (p.z - q.z)

/-- The double loop of `mean_squared_distance` (lines 278-287): the
sum of `sqDist` over each pair of live particles, visited once
(`i < j`). -/
noncomputable def msdSum (l : List Particle) : ℝ :=
  ∑ i in Finset.range l.length, ∑ j in Finset.Ico (i + 1) l.length,
    sqDist (l.getD i pzero) (l.getD j pzero)

/-- `n_pairs = b->n*(b->n - 1)/2` (line 290), with C `unsigned long`
truncating division. -/
def nPairs (n : ℕ) : ℕ := n * (n - 1) / 2

/-- `mean_squared_distance` (`eigenvalue.c` lines 269-293) on the live
particle list of the bank. -/
noncomputable def mean_squared_distance (l : List Particle) : ℝ :=
  msdSum l / (nPairs l.length : ℝ)

/-- Structural form of the pair sum: distances from the head to every
later particle, plus the pair sum of the tail. -/
noncomputable def pairSum : List Particle → ℝ
  | [] => 0
  | p :: l => (l.map (sqDist p)).sum + pairSum l

/-- A list sum of mapped values as a `Finset.range` sum over `getD`. -/
theorem sum_map_getD (f : Particle → ℝ) : ∀ l : List Particle,
    (l.map f).sum = ∑ j in Finset.range l.length, f (l.getD j pzero) := by
  intro l
  induction l with
  | nil => simp
  | cons q l ih =>
    rw [List.map_cons, List.sum_cons, List.length_cons,
      Finset.sum_range_succ']
    simp only [List.getD_cons_succ, List.getD_cons_zero]
    rw [ih]
    ring

/-- The index-based pair sum equals its structural form. -/
theorem msdSum_eq_pairSum : ∀ l : List Particle, msdSum l = pairSum l := by
  intro l
  induction l with
  | nil => simp [msdSum, pairSum]
  | cons p l ih =>
    rw [pairSum, ← ih]
    unfold msdSum
    rw [List.length_cons, Finset.sum_range_succ']
    have hhead : (∑ j in Finset.Ico (0 + 1) (l.length + 1),
        sqDist ((p :: l).getD 0 pzero) ((p :: l).getD j pzero))
        = (l.map (sqDist p)).sum := by
      rw [Finset.sum_Ico_eq_sum_range, sum_map_getD]
      simp [Nat.add_comm 1]
    have htail : ∀ i, (∑ j in Finset.Ico (i + 1 + 1) (l.length + 1),
        sqDist ((p :: l).getD (i + 1) pzero) ((p :: l).getD j pzero))
        = ∑ j in Finset.Ico (i + 1) l.length,
            sqDist (l.getD i pzero) (l.getD j pzero) := by
      intro i
      rw [Finset.sum_Ico_eq_sum_range, Finset.sum_Ico_eq_sum_range]
      have hcnt : l.length + 1 - (i + 1 + 1) = l.length - (i + 1) := by omega
      rw [hcnt]
      refine Finset.sum_congr rfl ?_
      intro k _
      have h1 : i + 1 + 1 + k = (i + 1 + k) + 1 := by ring
      rw [h1]
      simp only [List.getD_cons_succ]
    simp only [hhead, htail]
    ring

/-- The full double sum of pairwise squared distances. -/
noncomputable def dblSum (l : List Particle) : ℝ :=
  (l.map (fun p => (l.map (sqDist p)).sum)).sum

/-- `sqDist` is symmetric. -/
theorem sqDist_comm (p q : Particle) : sqDist p q = sqDist q p := by
  unfold sqDist; ring

/-- Sums of pointwise sums of mapped lists split. -/
theorem sum_map_add (f g : Particle → ℝ) : ∀ l : List Particle,
    (l.map (fun r => f r + g r)).sum = (l.map f).sum + (l.map g).sum := by
  intro l
  induction l with
  | nil => simp
  | cons q l ih => simp only [List.map_cons, List.sum_cons, ih]; ring

/-- The double sum is twice the pair sum (the diagonal vanishes and
`sqDist` is symmetric). -/
theorem dblSum_eq_two_pairSum : ∀ l : List Particle,
    dblSum l = 2 * pairSum l := by
  intro l
  induction l with
  | nil => simp [dblSum, pairSum]
  | cons p l ih =>
    unfold dblSum pairSum
    rw [List.map_cons, List.sum_cons, List.map_cons, List.sum_cons]
    have hdiag : sqDist p p = 0 := by unfold sqDist; ring
    have hsplit : (l.map (fun r => (l.map (sqDist r)).sum + sqDist r p)).sum
        = (l.map (fun r => (l.map (sqDist r)).sum)).sum
            + (l.map (fun r => sqDist r p)).sum :=
      sum_map_add _ _ l
    have hsymm : (l.map (fun r => sqDist r p)).sum
        = (l.map (sqDist p)).sum := by
      refine congrArg List.sum ?_
      refine List.map_congr_left ?_
      intro r _
      exact sqDist_comm r p
    have hbody : (l.map (fun r => ((p :: l).map (sqDist r)).sum)).sum
        = (l.map (fun r => (l.map (sqDist r)).sum + sqDist r p)).sum := by
      refine congrArg List.sum ?_
      refine List.map_congr_left ?_
      intro r _
      rw [List.map_cons, List.sum_cons]
      ring
    rw [hdiag, hbody, hsplit, hsymm]
    have ihl : (l.map (fun r => (l.map (sqDist r)).sum)).sum = 2 * pairSum l := ih
    rw [ihl]
    ring

/-- The double sum is invariant under permutation of the bank. -/
theorem dblSum_perm {l₁ l₂ : List Particle} (h : l₁.Perm l₂) :
    dblSum l₁ = dblSum l₂ := by
  unfold dblSum
  have hfun : ∀ r, (l₁.map (sqDist r)).sum = (l₂.map (sqDist r)).sum :=
    fun r => (h.map (sqDist r)).sum_eq
  have h1 : (l₁.map (fun p => (l₁.map (sqDist p)).sum)).sum
      = (l₁.map (fun p => (l₂.map (sqDist p)).sum)).sum := by
    refine congrArg List.sum ?_
    exact List.map_congr_left (fun r _ => hfun r)
  rw [h1]
  exact (h.map (fun p => (l₂.map (sqDist p)).sum)).sum_eq

/-- Translation of every particle position by a common vector
`(a, b, c)`; the other record fields ride along unchanged. -/
def shift (a b c : ℝ) (p : Particle) : Particle :=
  ⟨p.x + a, p.y + b, p.z + c, p.u, p.v, p.w, p.wgt, p.e, p.alive⟩

/-- `sqDist` is translation invariant. -/
theorem sqDist_shift (a b c : ℝ) (p q : Particle) :
    sqDist (shift a b c p) (shift a b c q) = sqDist p q := by
  unfold sqDist shift
  ring

/-- The pair sum is translation invariant. -/
theorem pairSum_shift (a b c : ℝ) : ∀ l : List Particle,
    pairSum (l.map (shift a b c)) = pairSum l := by
  intro l
  induction l with
  | nil => rfl
  | cons p l ih =>
    rw [List.map_cons, pairSum, pairSum, ih, List.map_map]
    have : (l.map (sqDist (shift a b c p) ∘ shift a b c)).sum
        = (l.map (sqDist p)).sum := by
      refine congrArg List.sum ?_
      refine List.map_congr_left ?_
      intro r _
      exact sqDist_shift a b c p r
    rw [this]

/-- Claim C9: for a bank of at least two particles,
`mean_squared_distance` is invariant under any permutation of the
bank's particles and under translating every position by one common
vector. -/
theorem claim_C9 (l₁ l₂ : List Particle) (a b c : ℝ)
    (h2 : 2 ≤ l₁.length) (hperm : l₁.Perm l₂) :
    mean_squared_distance l₂ = mean_squared_distance l₁
    ∧ mean_squared_distance (l₁.map (shift a b c))
        = mean_squared_distance l₁ := by
  have hpair : ∀ {m₁ m₂ : List Particle}, m₁.Perm m₂ → pairSum m₁ = pairSum m₂ := by
    intro m₁ m₂ h
    have := dblSum_perm h
    rw [dblSum_eq_two_pairSum, dblSum_eq_two_pairSum] at this
    exact mul_left_cancel₀ two_ne_zero this
  constructor
  · unfold mean_squared_distance
    rw [msdSum_eq_pairSum, msdSum_eq_pairSum, hpair hperm.symm,
      hperm.length_eq]
  · unfold mean_squared_distance
    rw [msdSum_eq_pairSum, msdSum_eq_pairSum, pairSum_shift,
      List.length_map]

/-- Witness for claim C9 at a concrete input: two particles swapped,
translated by `(1, 2, 3)`. -/
theorem claim_C9_witness :
    (2 ≤ List.length [pzero, pstale]) ∧
    ([pzero, pstale].Perm [pstale, pzero]) ∧
    (mean_squared_distance [pstale, pzero]
        = mean_squared_distance [pzero, pstale]
      ∧ mean_squared_distance ([pzero, pstale].map (shift 1 2 3))
          = mean_squared_distance [pzero, pstale]) :=
  ⟨by simp, List.Perm.swap pstale pzero [],
    claim_C9 [pzero, pstale] [pstale, pzero] 1 2 3 (by simp)
      (List.Perm.swap pstale pzero [])⟩

/-- Claim C10: for a bank with at most one particle the computed pair
count `n*(n-1)/2` is zero, so the final division of
`mean_squared_distance` is an unguarded division by zero. -/
theorem claim_C10 (l : List Particle) (h : l.length ≤ 1) :
    nPairs l.length = 0
    ∧ mean_squared_distance l = msdSum l / ((0 : ℕ) : ℝ) := by
  have hz : nPairs l.length = 0 := by
    unfold nPairs
    rcases Nat.le_one_iff_eq_zero_or_eq_one.mp h with h0 | h1
    · rw [h0]
    · rw [h1]
  refine ⟨hz, ?_⟩
  unfold mean_squared_distance
  rw [hz]

/-- Witness for claim C10 at a concrete input: a single-particle
bank. -/
theorem claim_C10_witness :
    (List.length [pstale] ≤ 1) ∧
    (nPairs (List.length [pstale]) = 0
      ∧ mean_squared_distance [pstale] = msdSum [pstale] / ((0 : ℕ) : ℝ)) :=
  ⟨by simp, claim_C10 [pstale] (by simp)⟩

/-- `n = ceil(pow(b->n/20, 1.0/3.0))` (`eigenvalue.c` line 235): the
number of grid boxes per dimension.  `b->n/20` is C unsigned integer
division; the truncated quotient is converted to double and raised to
the power 1/3. -/
noncomputable def entropyM (nb : ℕ) : ℕ :=
  Nat.ceil (((nb / 20 : ℕ) : ℝ) ^ ((1 : ℝ) / 3))

/-- The flat grid-box index of a particle (`eigenvalue.c` lines
249-253): `ix*n*n + iy*n + iz` with `ix = p->x/dx` (double-to-unsigned
conversion, which is `floor` for the nonnegative positions the claim
assumes), `dx = Lx/n`, etc. -/
noncomputable def cellIdx (g : Geometry) (m : ℕ) (p : Particle) : ℕ :=
  Nat.floor (p.x / (g.Lx / (m : ℝ))) * m * m
    + Nat.floor (p.y / (g.Ly / (m : ℝ))) * m
    + Nat.floor (p.z / (g.Lz / (m : ℝ)))

/-- One `count[...]++` of the counting loop (line 253). -/
def tallyCell (f : ℕ → ℕ) (c : ℕ) : ℕ → ℕ :=
  fun d => if d = c then f c + 1 else f d

/-- The per-cell counts after the loop over particles (lines 245-254),
starting from the `calloc`-zeroed array. -/
noncomputable def cellCounts (g : Geometry) (m : ℕ) (b : List Particle) :
    ℕ → ℕ :=
  b.foldl (fun f p => tallyCell f (cellIdx g m p)) (fun _ => 0)

/-- `shannon_entropy` (`eigenvalue.c` lines 224-266): the entropy sum
over the `n*n*n` grid boxes with nonzero counts. -/
noncomputable def shannon_entropy (g : Geometry) (b : List Particle) : ℝ :=
  ∑ c in Finset.range (entropyM b.length * entropyM b.length * entropyM b.length),
    if 0 < cellCounts g (entropyM b.length) b c then
      -(((cellCounts g (entropyM b.length) b c : ℝ) / (b.length : ℝ))
          * Real.logb 2
              ((cellCounts g (entropyM b.length) b c : ℝ) / (b.length : ℝ)))
    else 0

/-- Claim C7's cell of a particle: the triple
`(⌊x/dx⌋, ⌊y/dy⌋, ⌊z/dz⌋)` with `dx = Lx/m` etc. -/
noncomputable def cellTriple (g : Geometry) (m : ℕ) (p : Particle) :
    ℕ × ℕ × ℕ :=
  (Nat.floor (p.x / (g.Lx / (m : ℝ))),
    Nat.floor (p.y / (g.Ly / (m : ℝ))),
    Nat.floor (p.z / (g.Lz / (m : ℝ))))

/-- Claim C7's count of a cell: the number of bank particles whose
cell is that triple. -/
noncomputable def tripleCount (g : Geometry) (m : ℕ) (b : List Particle)
    (t : ℕ × ℕ × ℕ) : ℕ :=
  b.countP (fun p => decide (cellTriple g m p = t))

/-- Claim C7's entropy formula over an `m × m × m` partition of the
box: `H = −∑_{c : count_c > 0} p_c · log₂ p_c` with `p_c = count_c/n`. -/
noncomputable def entropyFormula (m n : ℕ) (cnt : ℕ × ℕ × ℕ → ℕ) : ℝ :=
  ∑ t in Finset.range m ×ˢ Finset.range m ×ˢ Finset.range m,
    if 0 < cnt t then
      -(((cnt t : ℝ) / (n : ℝ)) * Real.logb 2 ((cnt t : ℝ) / (n : ℝ)))
    else 0

/-- The entropy as claim C7 states it, with the real-valued quotient
`n/20` in the cell-count formula `m = ⌈(n/20)^{1/3}⌉`. -/
noncomputable def shannonEntropyClaim (g : Geometry) (b : List Particle) : ℝ :=
  entropyFormula (Nat.ceil (((b.length : ℝ) / 20) ^ ((1 : ℝ) / 3))) b.length
    (tripleCount g (Nat.ceil (((b.length : ℝ) / 20) ^ ((1 : ℝ) / 3))) b)

/-- The amended claim C7: the same entropy formula, with `m` computed
from the C integer quotient `⌊n/20⌋` as the code does. -/
noncomputable def shannonEntropyAmended (g : Geometry) (b : List Particle) : ℝ :=
  entropyFormula (entropyM b.length) b.length
    (tripleCount g (entropyM b.length) b)

/-- A particle position lies inside the box `[0,Lx) × [0,Ly) × [0,Lz)`
(claim C7's boundary assumption). -/
def inBox (g : Geometry) (p : Particle) : Prop :=
  0 ≤ p.x ∧ p.x < g.Lx ∧ 0 ≤ p.y ∧ p.y < g.Ly ∧ 0 ≤ p.z ∧ p.z < g.Lz

/-- The counting loop computes, in each cell, the number of bank
particles indexed to that cell. -/
theorem cellCounts_countP (g : Geometry) (m : ℕ) :
    ∀ (b : List Particle) (f : ℕ → ℕ) (c : ℕ),
      (b.foldl (fun f p => tallyCell f (cellIdx g m p)) f) c
        = f c + b.countP (fun p => decide (cellIdx g m p = c)) := by
  intro b
  induction b with
  | nil => intro f c; simp
  | cons p b ih =>
    intro f c
    rw [List.foldl_cons, ih, List.countP_cons]
    have h1 : tallyCell f (cellIdx g m p) c
        = f c + (if decide (cellIdx g m p = c) = true then 1 else 0) := by
      by_cases hc : c = cellIdx g m p
      · subst hc
        simp [tallyCell]
      · have hc' : ¬ (cellIdx g m p = c) := fun h => hc h.symm
        simp [tallyCell, hc, hc']
    rw [h1]
    omega

/-- `cellCounts` as a `countP`. -/
theorem cellCounts_eq (g : Geometry) (m : ℕ) (b : List Particle) (c : ℕ) :
    cellCounts g m b c = b.countP (fun p => decide (cellIdx g m p = c)) := by
  unfold cellCounts
  rw [cellCounts_countP]
  exact Nat.zero_add _

/-- The flat index is the base-`m` flattening of the cell triple. -/
theorem cellIdx_eq_flat (g : Geometry) (m : ℕ) (p : Particle) :
    cellIdx g m p
      = (cellTriple g m p).1 * m * m + (cellTriple g m p).2.1 * m
          + (cellTriple g m p).2.2 := rfl

/-- Base-`m` digit recovery for a bounded triple. -/
theorem flat_digits (m i j k : ℕ) (hi : i < m) (hj : j < m) (hk : k < m) :
    (i * m * m + j * m + k) / (m * m) = i
    ∧ (i * m * m + j * m + k) / m % m = j
    ∧ (i * m * m + j * m + k) % m = k := by
  have hm : 0 < m := Nat.lt_of_le_of_lt (Nat.zero_le k) hk
  have hrew : i * m * m + j * m + k = m * (m * i + j) + k := by ring
  have hdm : (i * m * m + j * m + k) / m = m * i + j := by
    rw [hrew, Nat.mul_add_div hm, Nat.div_eq_of_lt hk, Nat.add_zero]
  refine ⟨?_, ?_, ?_⟩
  · have hsub : j * m + k < m * m := by
      calc j * m + k < j * m + m := by omega
        _ = (j + 1) * m := by ring
        _ ≤ m * m := Nat.mul_le_mul_right m hj
    have hrew2 : i * m * m + j * m + k = (m * m) * i + (j * m + k) := by ring
    rw [hrew2, Nat.mul_add_div (Nat.mul_pos hm hm), Nat.div_eq_of_lt hsub,
      Nat.add_zero]
  · rw [hdm, Nat.mul_add_mod, Nat.mod_eq_of_lt hj]
  · rw [hrew, Nat.mul_add_mod, Nat.mod_eq_of_lt hk]

/-- Flattening is injective on triples bounded by `m`. -/
theorem flat_inj (m : ℕ) (t t' : ℕ × ℕ × ℕ)
    (ht : t.1 < m ∧ t.2.1 < m ∧ t.2.2 < m)
    (ht' : t'.1 < m ∧ t'.2.1 < m ∧ t'.2.2 < m)
    (h : t.1 * m * m + t.2.1 * m + t.2.2
        = t'.1 * m * m + t'.2.1 * m + t'.2.2) : t = t' := by
  obtain ⟨h1, h2, h3⟩ := flat_digits m t.1 t.2.1 t.2.2 ht.1 ht.2.1 ht.2.2
  obtain ⟨h1', h2', h3'⟩ := flat_digits m t'.1 t'.2.1 t'.2.2 ht'.1 ht'.2.1 ht'.2.2
  have e1 : t.1 = t'.1 := by rw [← h1, ← h1', h]
  have e2 : t.2.1 = t'.2.1 := by rw [← h2, ← h2', h]
  have e3 : t.2.2 = t'.2.2 := by rw [← h3, ← h3', h]
  exact Prod.ext e1 (Prod.ext e2 e3)

/-- A particle inside the box has all three cell coordinates below `m`. -/
theorem cellTriple_lt (g : Geometry) (m : ℕ) (p : Particle) (hm : 0 < m)
    (hLx : 0 < g.Lx) (hLy : 0 < g.Ly) (hLz : 0 < g.Lz) (hp : inBox g p) :
    (cellTriple g m p).1 < m ∧ (cellTriple g m p).2.1 < m
      ∧ (cellTriple g m p).2.2 < m := by
  obtain ⟨hx0, hx1, hy0, hy1, hz0, hz1⟩ := hp
  have hmR : (0 : ℝ) < (m : ℝ) := by exact_mod_cast hm
  have key : ∀ (x L : ℝ), 0 < L → 0 ≤ x → x < L →
      Nat.floor (x / (L / (m : ℝ))) < m := by
    intro x L hL hx hxL
    have hpos : 0 ≤ x / (L / (m : ℝ)) := by positivity
    rw [Nat.floor_lt hpos, div_div_eq_mul_div, div_lt_iff hL]
    calc x * (m : ℝ) < L * (m : ℝ) := by
          exact mul_lt_mul_of_pos_right hxL hmR
      _ = (m : ℝ) * L := by ring
  exact ⟨key p.x g.Lx hLx hx0 hx1, key p.y g.Ly hLy hy0 hy1,
    key p.z g.Lz hLz hz0 hz1⟩

/-- Count correspondence: for a cell triple bounded by `m`, the
code's flat count at the flattened index equals the claim's triple
count, provided every particle lies in the box. -/
theorem count_corresp (g : Geometry) (m : ℕ) (b : List Particle)
    (hLx : 0 < g.Lx) (hLy : 0 < g.Ly) (hLz : 0 < g.Lz) (hm : 0 < m)
    (hbox : ∀ p ∈ b, inBox g p) (t : ℕ × ℕ × ℕ)
    (ht : t.1 < m ∧ t.2.1 < m ∧ t.2.2 < m) :
    cellCounts g m b (t.1 * m * m + t.2.1 * m + t.2.2)
      = tripleCount g m b t := by
  rw [cellCounts_eq]
  unfold tripleCount
  refine List.countP_congr ?_
  intro p hp
  have hb := cellTriple_lt g m p hm hLx hLy hLz (hbox p hp)
  simp only [decide_eq_true_eq]
  constructor
  · intro h
    refine flat_inj m (cellTriple g m p) t hb ht ?_
    rw [← cellIdx_eq_flat]
    exact h
  · intro h
    rw [cellIdx_eq_flat, h]

/-- Flattening a triple bounded by `m` lands below `m*m*m`. -/
theorem flat_lt (m i j k : ℕ) (hi : i < m) (hj : j < m) (hk : k < m) :
    i * m * m + j * m + k < m * m * m := by
  have hq : i * m + j < m * m :=
    calc i * m + j < i * m + m := by omega
      _ = (i + 1) * m := by ring
      _ ≤ m * m := Nat.mul_le_mul_right m hi
  calc i * m * m + j * m + k = (i * m + j) * m + k := by ring
    _ < (i * m + j) * m + m := by omega
    _ = (i * m + j + 1) * m := by ring
    _ ≤ (m * m) * m := Nat.mul_le_mul_right m hq
    _ = m * m * m := rfl

/-- Amended claim C7: for every bank whose positions lie inside the
box of a geometry with positive sides, `shannon_entropy` returns
exactly the claim's entropy formula over the `m × m × m` floor-cell
partition — with `m = ⌈(⌊n/20⌋)^{1/3}⌉` computed from the C integer
quotient `n/20`, as the code does, rather than the claim's real
quotient. -/
theorem claim_C7_amended (g : Geometry) (b : List Particle)
    (hLx : 0 < g.Lx) (hLy : 0 < g.Ly) (hLz : 0 < g.Lz)
    (hbox : ∀ p ∈ b, inBox g p) :
    shannon_entropy g b = shannonEntropyAmended g b := by
  unfold shannon_entropy shannonEntropyAmended entropyFormula
  by_cases hm : entropyM b.length = 0
  · rw [hm]
    simp
  · have hm0 : 0 < entropyM b.length := Nat.pos_of_ne_zero hm
    refine Eq.symm (Finset.sum_nbij'
      (fun t : ℕ × ℕ × ℕ =>
        t.1 * entropyM b.length * entropyM b.length
          + t.2.1 * entropyM b.length + t.2.2)
      (fun c => (c / (entropyM b.length * entropyM b.length),
        c / entropyM b.length % entropyM b.length, c % entropyM b.length))
      ?_ ?_ ?_ ?_ ?_)
    · intro t htm
      simp only [Finset.mem_product, Finset.mem_range] at htm
      simp only [Finset.mem_range]
      exact flat_lt _ _ _ _ htm.1 htm.2.1 htm.2.2
    · intro c hc
      simp only [Finset.mem_range] at hc
      simp only [Finset.mem_product, Finset.mem_range]
      refine ⟨?_, ?_, ?_⟩
      · rw [Nat.div_lt_iff_lt_mul (Nat.mul_pos hm0 hm0)]
        calc c < entropyM b.length * entropyM b.length * entropyM b.length := hc
          _ = entropyM b.length * (entropyM b.length * entropyM b.length) := by
              ring
      · exact Nat.mod_lt _ hm0
      · exact Nat.mod_lt _ hm0
    · intro t htm
      simp only [Finset.mem_product, Finset.mem_range] at htm
      obtain ⟨h1, h2, h3⟩ :=
        flat_digits (entropyM b.length) t.1 t.2.1 t.2.2 htm.1 htm.2.1 htm.2.2
      exact Prod.ext h1 (Prod.ext h2 h3)
    · intro c hc
      have hdm : c % (entropyM b.length * entropyM b.length)
          = c % entropyM b.length
            + entropyM b.length * (c / entropyM b.length % entropyM b.length) :=
        Nat.mod_mul
      calc c / (entropyM b.length * entropyM b.length) * entropyM b.length
              * entropyM b.length
            + c / entropyM b.length % entropyM b.length * entropyM b.length
            + c % entropyM b.length
          = c / (entropyM b.length * entropyM b.length)
              * (entropyM b.length * entropyM b.length)
            + (c % entropyM b.length
              + entropyM b.length
                * (c / entropyM b.length % entropyM b.length)) := by ring
        _ = c / (entropyM b.length * entropyM b.length)
              * (entropyM b.length * entropyM b.length)
            + c % (entropyM b.length * entropyM b.length) := by rw [hdm]
        _ = c := by
            rw [Nat.mul_comm (c / (entropyM b.length * entropyM b.length))]
            exact Nat.div_add_mod c (entropyM b.length * entropyM b.length)
    · intro t htm
      simp only [Finset.mem_product, Finset.mem_range] at htm
      rw [count_corresp g (entropyM b.length) b hLx hLy hLz hm0 hbox t
        ⟨htm.1, htm.2.1, htm.2.2⟩]

/-- Particle at `(1/2, 1/2, 1/2)` for the claim C7 counterexample. -/
noncomputable def pA : Particle := ⟨1 / 2, 1 / 2, 1 / 2, 0, 0, 1, 1, 0, true⟩

/-- Particle at `(3/2, 1/2, 1/2)` for the claim C7 counterexample. -/
noncomputable def pB : Particle := ⟨3 / 2, 1 / 2, 1 / 2, 0, 0, 1, 1, 0, true⟩

/-- A 21-particle bank: 11 copies of `pA`, 10 of `pB`.  The code
computes `m = ⌈(⌊21/20⌋)^{1/3}⌉ = 1`, the claim's formula gives
`m = ⌈(21/20)^{1/3}⌉ = 2`. -/
noncomputable def bank21 : List Particle :=
  List.replicate 11 pA ++ List.replicate 10 pB

/-- The `2 × 2 × 2` box of the claim C7 counterexample. -/
def g2 : Geometry := ⟨2, 2, 2⟩

theorem bank21_length : bank21.length = 21 := by
  simp [bank21]

theorem entropyM_21 : entropyM 21 = 1 := by
  unfold entropyM
  have h1 : (21 / 20 : ℕ) = 1 := by norm_num
  rw [h1, Nat.cast_one, Real.one_rpow, Nat.ceil_one]

theorem ceil_claim_21 :
    Nat.ceil ((((21 : ℕ) : ℝ) / 20) ^ ((1 : ℝ) / 3)) = 2 := by
  have hx : (1 : ℝ) < ((21 : ℕ) : ℝ) / 20 := by norm_num
  have hx0 : (0 : ℝ) < ((21 : ℕ) : ℝ) / 20 := by norm_num
  rw [Nat.ceil_eq_iff (by norm_num)]
  constructor
  · have h1 : (1 : ℝ) < (((21 : ℕ) : ℝ) / 20) ^ ((1 : ℝ) / 3) :=
      (Real.one_lt_rpow_iff_of_pos hx0).mpr (Or.inl ⟨hx, by norm_num⟩)
    calc ((2 - 1 : ℕ) : ℝ) = 1 := by norm_num
      _ < (((21 : ℕ) : ℝ) / 20) ^ ((1 : ℝ) / 3) := h1
  · calc (((21 : ℕ) : ℝ) / 20) ^ ((1 : ℝ) / 3)
        ≤ (((21 : ℕ) : ℝ) / 20) ^ ((1 : ℝ)) :=
          Real.rpow_le_rpow_of_exponent_le (le_of_lt hx) (by norm_num)
      _ = ((21 : ℕ) : ℝ) / 20 := Real.rpow_one _
      _ ≤ ((2 : ℕ) : ℝ) := by norm_num

theorem cellIdx_pA_1 : cellIdx g2 1 pA = 0 := by
  unfold cellIdx g2 pA
  norm_num

theorem cellIdx_pB_1 : cellIdx g2 1 pB = 0 := by
  unfold cellIdx g2 pB
  norm_num

theorem cellTriple_pA_2 : cellTriple g2 2 pA = (0, 0, 0) := by
  unfold cellTriple g2 pA
  norm_num

theorem cellTriple_pB_2 : cellTriple g2 2 pB = (1, 0, 0) := by
  unfold cellTriple g2 pB
  norm_num
  rw [Nat.floor_eq_iff (by norm_num)]
  norm_num

theorem count_code_21 : cellCounts g2 1 bank21 0 = 21 := by
  rw [cellCounts_eq]
  unfold bank21
  rw [List.countP_append, List.countP_replicate, List.countP_replicate]
  simp [cellIdx_pA_1, cellIdx_pB_1]

theorem tcount_claim_11 : tripleCount g2 2 bank21 (0, 0, 0) = 11 := by
  unfold tripleCount bank21
  rw [List.countP_append, List.countP_replicate, List.countP_replicate]
  simp [cellTriple_pA_2, cellTriple_pB_2]

/-- The code returns entropy 0 on `bank21` in `g2`: with `m = 1` all
21 particles land in the single cell. -/
theorem shannon_code_zero : shannon_entropy g2 bank21 = 0 := by
  unfold shannon_entropy
  simp only [bank21_length, entropyM_21]
  rw [show (1 * 1 * 1 : ℕ) = 1 from rfl, Finset.sum_range_one,
    count_code_21]
  norm_num [Real.logb_one]

/-- Every summand of the entropy formula is nonnegative when counts do
not exceed the bank size. -/
theorem entropyTerm_nonneg (cnt n : ℕ) (hle : cnt ≤ n) :
    0 ≤ if 0 < cnt then
        -(((cnt : ℝ) / (n : ℝ)) * Real.logb 2 ((cnt : ℝ) / (n : ℝ)))
      else 0 := by
  by_cases h : 0 < cnt
  · rw [if_pos h]
    have hn : 0 < n := lt_of_lt_of_le h hle
    have hp0 : (0 : ℝ) < (cnt : ℝ) / (n : ℝ) := by
      apply div_pos
      · exact_mod_cast h
      · exact_mod_cast hn
    have hp1 : (cnt : ℝ) / (n : ℝ) ≤ 1 := by
      rw [div_le_one (by exact_mod_cast hn)]
      exact_mod_cast hle
    have hlog : Real.logb 2 ((cnt : ℝ) / (n : ℝ)) ≤ 0 :=
      Real.logb_nonpos (by norm_num) (le_of_lt hp0) hp1
    have hmul := mul_nonneg (le_of_lt hp0) (neg_nonneg.mpr hlog)
    calc (0 : ℝ)
        ≤ (cnt : ℝ) / (n : ℝ) * (-Real.logb 2 ((cnt : ℝ) / (n : ℝ))) := hmul
      _ = -((cnt : ℝ) / (n : ℝ) * Real.logb 2 ((cnt : ℝ) / (n : ℝ))) := by
          ring
  · rw [if_neg h]

/-- The claim's formula returns strictly positive entropy on `bank21`
in `g2`: with its `m = 2` the two particle positions fall in different
cells. -/
theorem shannon_claim_pos : 0 < shannonEntropyClaim g2 bank21 := by
  unfold shannonEntropyClaim entropyFormula
  simp only [bank21_length, ceil_claim_21]
  apply Finset.sum_pos'
  · intro t _
    refine entropyTerm_nonneg _ 21 ?_
    have := List.countP_le_length
      (p := fun p => decide (cellTriple g2 2 p = t)) (l := bank21)
    unfold tripleCount
    calc List.countP (fun p => decide (cellTriple g2 2 p = t)) bank21
        ≤ bank21.length := List.countP_le_length _
      _ = 21 := bank21_length
  · refine ⟨(0, 0, 0), ?_, ?_⟩
    · simp [Finset.mem_product]
    · rw [tcount_claim_11, if_pos (by norm_num)]
      have hlog : Real.logb 2 ((11 : ℝ) / 21) < 0 :=
        Real.logb_neg (by norm_num) (by norm_num) (by norm_num)
      have hmul : (0 : ℝ) < (11 : ℝ) / 21 * (-Real.logb 2 ((11 : ℝ) / 21)) :=
        mul_pos (by norm_num) (by linarith)
      have hcast : (((11 : ℕ) : ℝ) / ((21 : ℕ) : ℝ))
          = ((11 : ℝ) / 21) := by norm_num
      rw [hcast]
      calc (0 : ℝ)
          < (11 : ℝ) / 21 * (-Real.logb 2 ((11 : ℝ) / 21)) := hmul
        _ = -((11 : ℝ) / 21 * Real.logb 2 ((11 : ℝ) / 21)) := by ring

theorem inBox_pA : inBox g2 pA := by
  unfold inBox g2 pA
  norm_num

theorem inBox_pB : inBox g2 pB := by
  unfold inBox g2 pB
  norm_num

/-- Counterexample to claim C7: on a 21-particle bank inside the box
(the claim's preconditions hold), the code's entropy is 0 while the
claim's formula — with `m = ⌈(21/20)^{1/3}⌉ = 2` from the real-valued
quotient — is strictly positive: the code computes `b->n/20` with C
integer division, so its grid has `m = 1`. -/
theorem claim_C7_counterexample :
    (0 < bank21.length) ∧ inBox g2 pA ∧ inBox g2 pB
    ∧ shannon_entropy g2 bank21 = 0
    ∧ 0 < shannonEntropyClaim g2 bank21
    ∧ shannon_entropy g2 bank21 ≠ shannonEntropyClaim g2 bank21 := by
  refine ⟨?_, inBox_pA, inBox_pB, shannon_code_zero, shannon_claim_pos, ?_⟩
  · rw [bank21_length]; norm_num
  · rw [shannon_code_zero]
    exact ne_of_lt shannon_claim_pos

/-- Witness for the amended claim C7 at the concrete bank `bank21`. -/
theorem claim_C7_amended_witness :
    ((0 : ℝ) < g2.Lx) ∧ ((0 : ℝ) < g2.Ly) ∧ ((0 : ℝ) < g2.Lz)
    ∧ shannon_entropy g2 bank21 = shannonEntropyAmended g2 bank21 := by
  have hbox : ∀ p ∈ bank21, inBox g2 p := by
    intro p hp
    unfold bank21 at hp
    rw [List.mem_append, List.mem_replicate, List.mem_replicate] at hp
    rcases hp with ⟨_, rfl⟩ | ⟨_, rfl⟩
    · exact inBox_pA
    · exact inBox_pB
  exact ⟨by norm_num [g2], by norm_num [g2], by norm_num [g2],
    claim_C7_amended g2 bank21 (by norm_num [g2]) (by norm_num [g2])
      (by norm_num [g2]) hbox⟩

end SimpleMC
